import Mathlib

/-!
Verification of the diff line-mapping and annotation-reconciliation engine of
the `code_review.py` script (AI code review for GitLab merge requests).

Python strings are modelled as `List Char`; the Python string operations the
script uses (`split`, `startswith`, `endswith`, `strip`, `in`, `lower`,
`int(...)`) are modelled by executable functions below that follow CPython
semantics on the inputs the script can meet (ASCII case mapping and the
ASCII whitespace class are used; exotic unicode digit forms accepted by
CPython's `int` are not modelled).
-/

set_option maxRecDepth 4000

abbrev Str := List Char

/-- Coerce a Lean string literal into the `List Char` string model. -/
def str (s : String) : Str := s.toList

/-- Python `s.startswith(pre)`. -/
def startsWith : Str → Str → Bool
  | [], _ => true
  | _ :: _, [] => false
  | p :: ps, c :: cs => p == c && startsWith ps cs

/-- Python `s.endswith(suf)`. -/
def endsWith (suf s : Str) : Bool := startsWith suf.reverse s.reverse

/-- Python `needle in hay` (substring containment; empty needle matches). -/
def containsSub (needle : Str) : Str → Bool
  | [] => startsWith needle []
  | c :: cs => startsWith needle (c :: cs) || containsSub needle cs

/-- Python `s.split(sep)` for a one-character separator `sep`. -/
def splitOnChar (sep : Char) : Str → List Str
  | [] => [[]]
  | c :: rest =>
    match splitOnChar sep rest with
    | [] => [[c]]
    | h :: t => if c = sep then [] :: h :: t else (c :: h) :: t

/-- Python `s.split("@@")` (two-character separator, leftmost non-overlapping). -/
def splitOnAtAt : Str → List Str
  | [] => [[]]
  | [c] => [[c]]
  | c1 :: c2 :: rest =>
    if c1 = '@' ∧ c2 = '@' then [] :: splitOnAtAt rest
    else
      match splitOnAtAt (c2 :: rest) with
      | [] => [[c1]]
      | h :: t => (c1 :: h) :: t

/-- The ASCII whitespace characters stripped by Python `str.strip()`. -/
def pySpace (c : Char) : Bool :=
  c = ' ' || c = '\t' || c = '\n' || c = '\r' || c = '\x0b' || c = '\x0c'

/-- Python `s.strip()` (whitespace from both ends). -/
def pyStrip (s : Str) : Str :=
  ((s.dropWhile pySpace).reverse.dropWhile pySpace).reverse

/-- ASCII decimal digit test. -/
def isPyDigit (c : Char) : Bool := '0' ≤ c && c ≤ '9'

/-- Numeric value of an ASCII digit character. -/
def digitVal (c : Char) : Nat := c.toNat - '0'.toNat

/-- Value of a big-endian ASCII digit string. -/
def digitsVal (cs : Str) : Nat := cs.foldl (fun a c => 10 * a + digitVal c) 0

/-- Continuation of the digit grammar of Python `int`: digits with single
underscores allowed between digits. -/
def digitsBody : Str → Bool
  | [] => true
  | c :: rest =>
    if c = '_' then
      match rest with
      | [] => false
      | d :: rest2 => isPyDigit d && digitsBody rest2
    else isPyDigit c && digitsBody rest

/-- A nonempty unsigned digit run as accepted by Python `int` (underscores
between digits allowed, not leading or trailing). -/
def validNum : Str → Bool
  | [] => false
  | c :: rest => isPyDigit c && digitsBody rest

/-- Unsigned part of Python `int(s)`: `none` models `ValueError`. -/
def pyNatNum (cs : Str) : Option Nat :=
  if validNum cs then some (digitsVal (cs.filter (fun c => !(c == '_')))) else none

/-- Python `int(s)` for base 10: strips whitespace, optional sign, digit run.
`none` models `ValueError`. -/
def pyInt (s : Str) : Option Int :=
  match pyStrip s with
  | [] => none
  | c :: rest =>
    if c = '+' then (pyNatNum rest).map (fun n => (n : Int))
    else if c = '-' then (pyNatNum rest).map (fun n => -(n : Int))
    else (pyNatNum (c :: rest)).map (fun n => (n : Int))

/-- ASCII lowering of a character, as Python `str.lower` acts on ASCII. -/
def toLowerCh (c : Char) : Char :=
  if 'A' ≤ c ∧ c ≤ 'Z' then Char.ofNat (c.toNat + 32) else c

/-- Python `s.lower()` (ASCII part). -/
def lowerStr (s : Str) : Str := s.map toLowerCh

/-- ASCII digit character for a value below 10. -/
def digitCh : Nat → Char
  | 0 => '0' | 1 => '1' | 2 => '2' | 3 => '3' | 4 => '4'
  | 5 => '5' | 6 => '6' | 7 => '7' | 8 => '8' | 9 => '9'
  | _ => '?'

/-- Fuel-driven decimal rendering of a natural number (big-endian). -/
def natDigitsAux : Nat → Nat → Str
  | 0, _ => []
  | fuel + 1, n =>
    if n < 10 then [digitCh n]
    else natDigitsAux fuel (n / 10) ++ [digitCh (n % 10)]

/-- Python `str(n)` for a natural number. -/
def natDigits (n : Nat) : Str := natDigitsAux (n + 1) n

/-- Join strings with a one-character separator (inverse of `splitOnChar`). -/
def joinWith (sep : Char) : List Str → Str
  | [] => []
  | [l] => l
  | l :: l2 :: rest => l ++ sep :: joinWith sep (l2 :: rest)

/-!
## Embedding of `code_review.py`

Names follow the source. `Str → Option _` oracles stand for the external
GitLab / AI collaborators where a claim needs the surrounding control flow.
-/

/-- `IGNORE_PATTERNS` from the source (built-in default list, in order). -/
def IGNORE_PATTERNS : List Str :=
  [str "*.lock", str "*.min.js", str "*.min.css",
   str "package-lock.json", str "yarn.lock", str "composer.lock", str "pnpm-lock.yaml",
   str "__pycache__", str ".git", str "node_modules", str "vendor/",
   str "*.generated.*", str "*.map",
   str "storage/", str "bootstrap/cache/", str "public/build/", str "public/hot",
   str "dist/", str "build/", str ".next/", str ".nuxt/",
   str "_ide_helper*", str ".phpstorm.meta.php"]

/-- `REVIEW_EXTENSIONS` from the source (built-in default set; a Python set,
modelled as a list used only through membership). -/
def REVIEW_EXTENSIONS : List Str :=
  [str ".php", str ".vue", str ".blade.php",
   str ".py", str ".js", str ".ts", str ".tsx", str ".jsx", str ".mjs",
   str ".java", str ".kt", str ".go", str ".rs", str ".rb",
   str ".cs", str ".cpp", str ".c", str ".h", str ".swift"]

/-- `pathlib.PurePath(fp).name`: the last path component ('' and '.' segments
dropped, as pathlib drops empty and curdir parts). -/
def pathName (fp : Str) : Str :=
  let segs := (splitOnChar '/' fp).filter (fun s => !s.isEmpty && !(s == ['.']))
  segs.getLast?.getD []

/-- `pathlib.PurePath(fp).suffix`: `name[i:]` for `i = name.rfind('.')` when
`0 < i < len(name) - 1`, else the empty string. -/
def pathSuffix (fp : Str) : Str :=
  let name := pathName fp
  let parts := splitOnChar '.' name
  if parts.length ≤ 1 then []
  else if (parts.getLast?.getD []).isEmpty then []
  else if (joinWith '.' parts.dropLast).isEmpty then []
  else '.' :: parts.getLast?.getD []

/-- One iteration of the pattern loop in `should_review_file`: whether the
given ignore pattern excludes the file path. -/
def matchesIgnorePattern (file_path pat : Str) : Bool :=
  if startsWith (str "*") pat then
    pathSuffix file_path == pat.drop 1 || endsWith (pat.drop 1) (pathName file_path)
  else if endsWith (str "/") pat then
    containsSub pat.dropLast file_path
  else containsSub pat file_path

/-- `should_review_file` from the source, with the pattern list and extension
set explicit (the source reads them from module globals). -/
def should_review_file (patterns exts : List Str) (file_path : Str) : Bool :=
  match patterns with
  | [] => exts.contains (lowerStr (pathSuffix file_path))
  | pat :: rest =>
    if matchesIgnorePattern file_path pat then false
    else should_review_file rest exts file_path

/-- The `try` block of the `@@` branch of `parse_diff_for_new_lines`:
`int(line.split("+")[1].split("@@")[0].strip()` with the comma rule); `none`
models the caught `IndexError` / `ValueError`. -/
def headerNewStart (line : Str) : Option Int :=
  match splitOnChar '+' line with
  | _ :: p :: _ =>
    let plus_part := pyStrip ((splitOnAtAt p).headD [])
    if ',' ∈ plus_part then pyInt ((splitOnChar ',' plus_part).headD [])
    else pyInt plus_part
  | _ => none

/-- Body of the `for line in diff.split("\n")` loop of
`parse_diff_for_new_lines`; the state is `(current_new_line, new_lines)`. -/
def parse_diff_step (st : Int × List Int) (line : Str) : Int × List Int :=
  if startsWith (str "@@") line then
    match headerNewStart line with
    | some n => (n, st.2)
    | none => st
  else if startsWith (str "+") line && !(startsWith (str "+++") line) then
    (st.1 + 1, st.2 ++ [st.1])
  else if startsWith (str "-") line && !(startsWith (str "---") line) then
    st
  else if !(startsWith (str "\\") line) then
    (st.1 + 1, st.2)
  else st

/-- `parse_diff_for_new_lines` from the source. -/
def parse_diff_for_new_lines (diff : Str) : List Int :=
  ((splitOnChar '\n' diff).foldl parse_diff_step ((0 : Int), ([] : List Int))).2

/-- One element of the JSON array returned by the AI: either a JSON object
(fields accessed by the source via `.get`, `none` = key absent) or a non-dict
value (rejected by the `isinstance(c, dict)` check). The `message` field is
modelled as an optional string; a present-but-non-string JSON value is not
modelled (its only use is Python truthiness and string interpolation). -/
inductive AiItem where
  | obj (line : Option Int) (severity : Option Str) (message : Option Str)
        (suggestion : Option Str)
  | nonDict
deriving DecidableEq

/-- The validation filter of `analyze_with_ai`. `decoded` stands for the
result of `json.loads` on the (fence-stripped) AI response text: `none`
models `json.JSONDecodeError`, which the source turns into `[]`. The prompt
construction and HTTP call are outside the model. -/
def analyze_with_ai (decoded : Option (List AiItem)) (changed_lines : List Int) :
    List AiItem :=
  match decoded with
  | none => []
  | some comments =>
    comments.filter (fun c =>
      match c with
      | .obj line _ message _ =>
        (match line with
         | some l => changed_lines.contains l
         | none => false) &&
        (match message with
         | some m => !m.isEmpty
         | none => false)
      | .nonDict => false)

/-- `severity_emoji.get(severity, "💬")` from `format_comment`. -/
def severity_emoji_get (s : Str) : Str :=
  if s == str "critical" then str "🔴"
  else if s == str "warning" then str "🟡"
  else if s == str "suggestion" then str "💡"
  else str "💬"

/-- `format_comment` from the source. On a non-dict value the source would
fail, but the publish loop only ever formats findings that survived the
`analyze_with_ai` filter, which are all dicts. -/
def format_comment : AiItem → Str
  | .obj _ severity message suggestion =>
    let emoji := severity_emoji_get (severity.getD (str "suggestion"))
    let msg := message.getD []
    let sug := suggestion.getD []
    let text := emoji ++ str " **RejPAL**: " ++ msg
    if !sug.isEmpty then text ++ str "\n\n> 💡 **Návrh**: " ++ sug
    else text
  | .nonDict => []

/-- An inline-comment position (`note["position"]`): only the two fields the
source reads. -/
structure NotePosition where
  new_path : Str
  new_line : Int
deriving DecidableEq

/-- A GitLab note as the source reads it: `id`, `body`, optional `position`. -/
structure MRNote where
  id : Nat
  body : Str
  position : Option NotePosition
deriving DecidableEq

/-- A GitLab discussion: `id` and its `notes`. -/
structure Discussion where
  id : Nat
  notes : List MRNote
deriving DecidableEq

/-- The summary-marker test of `find_existing_summary_note` (current marker
`## RejPAL`, legacy marker `## 🤖 AI Code Review`). -/
def isSummaryBody (body : Str) : Bool :=
  containsSub (str "## RejPAL") body || containsSub (str "## 🤖 AI Code Review") body

/-- `find_existing_summary_note` from the source: id of the first note whose
body contains a summary marker. -/
def find_existing_summary_note : List MRNote → Option Nat
  | [] => none
  | note :: rest =>
    if isSummaryBody note.body then some note.id
    else find_existing_summary_note rest

/-- The record built by `get_existing_ai_comments` for each AI comment. -/
structure AIComment where
  note_id : Nat
  discussion_id : Nat
  file_path : Option Str
  line : Option Int
deriving DecidableEq

/-- `get_existing_ai_comments` from the source: notes of any discussion whose
body contains the inline authorship marker `**RejPAL**` (or the legacy
`**AI Review**`). -/
def get_existing_ai_comments (discussions : List Discussion) : List AIComment :=
  match discussions with
  | [] => []
  | d :: rest =>
    (d.notes.filterMap (fun note =>
      if !(containsSub (str "**RejPAL**") note.body)
          && !(containsSub (str "**AI Review**") note.body) then none
      else
        some { note_id := note.id, discussion_id := d.id,
               file_path := note.position.map (fun p => p.new_path),
               line := note.position.map (fun p => p.new_line) }))
    ++ get_existing_ai_comments rest

/-- The placeholder body created by `main` when no summary note exists. -/
def summaryPlaceholder : Str := str "## RejPAL\n\n⏳ Probíhá analýza..."

/-- The ensure-summary step of `main` (lines 522-531): find an existing
summary note, else create a placeholder note. `freshId` is the id the store
would assign to a newly created note. The guard is Python's
`if not summary_note_id`, falsy on both `None` and `0`. -/
def ensure_summary (notes : List MRNote) (freshId : Nat) : Nat × List MRNote :=
  let found := find_existing_summary_note notes
  if found = none ∨ found = some 0 then
    (freshId, notes ++ [{ id := freshId, body := summaryPlaceholder, position := none }])
  else (found.getD 0, notes)

/-- `change` entry of the MR changes list: the three fields `main` reads. -/
structure FileChange where
  new_path : Str
  diff : Str
  deleted_file : Bool
deriving DecidableEq

/-- A positioned comment created by `create_mr_discussion` (body plus the
position fields that vary per comment; the three revision anchors are fixed
for the whole pass and omitted). -/
structure PosComment where
  path : Str
  line : Int
  body : Str
deriving DecidableEq

/-- `comment.get("line")` as passed to `create_mr_discussion` (always a
present int for findings that survived the filter). -/
def commentLine : AiItem → Int
  | .obj line _ _ _ => line.getD 0
  | .nonDict => 0

/-- The per-file analysis/publish loop of `main` (lines 536-571), returning
`(reviewed_files, total_comments, published comments)`. `contentOf` models
`get_file_content` at the source branch (`none` = 404); `decodedOf` models
the decoded AI response per file path. The `MAX_FILE_SIZE` truncation only
affects the prompt text, which is inside the `decodedOf` oracle. Creation
failures of positioned comments are logged by the source and do not affect
these counters. -/
def reviewLoop (changes : List FileChange) (contentOf : Str → Option Str)
    (decodedOf : Str → Option (List AiItem)) : Nat × Nat × List PosComment :=
  changes.foldl (fun st change =>
    if !(should_review_file IGNORE_PATTERNS REVIEW_EXTENSIONS change.new_path) then st
    else if change.deleted_file then st
    else
      let rf := st.1 + 1
      let changed_lines := parse_diff_for_new_lines change.diff
      if changed_lines.isEmpty then (rf, st.2.1, st.2.2)
      else
        match contentOf change.new_path with
        | none => (rf, st.2.1, st.2.2)
        | some content =>
          if content.isEmpty then (rf, st.2.1, st.2.2)
          else
            let comments := analyze_with_ai (decodedOf change.new_path) changed_lines
            let inner := comments.foldl (fun st2 c =>
              (st2.1 + 1,
               st2.2 ++ [{ path := change.new_path, line := commentLine c,
                           body := format_comment c }]))
              (st.2.1, st.2.2)
            (rf, inner.1, inner.2))
    ((0 : Nat), (0 : Nat), ([] : List PosComment))

/-- The final summary body built by `main` (lines 576-587). -/
def renderSummary (reviewed_files total_comments deleted_count : Nat) : Str :=
  str "## RejPAL\n\n| Metrika | Hodnota |\n|---------|---------|\n| Zkontrolováno souborů | "
  ++ natDigits reviewed_files
  ++ str " |\n| Připomínek | " ++ natDigits total_comments
  ++ str " |\n| Smazáno starých | " ++ natDigits deleted_count
  ++ str " |\n\n"
  ++ (if total_comments = 0 then str "✨ Žádné významné problémy."
      else str "👆 Viz inline komentáře.")
  ++ str "\n\n<sub>Generováno automaticky</sub>\n"

/-- Observable outcome of one review pass. -/
structure PassResult where
  deleted_count : Nat
  delete_failures : List Nat
  summary_note_id : Nat
  reviewed_files : Nat
  total_comments : Nat
  published : List PosComment
  final_summary : Str
  notes_after : List MRNote
deriving DecidableEq

/-- The prune loop of `main` (lines 511-520): one delete call per discovered
AI comment; `deleted_count += 1` is unconditional in the source, failures
(status at least 400) are only logged — collected here as the failure list. -/
def pruneCount (discussions : List Discussion) (deleteStatus : Nat → Nat) :
    Nat × List Nat :=
  (get_existing_ai_comments discussions).foldl (fun (st : Nat × List Nat) c =>
    (st.1 + 1, if 400 ≤ deleteStatus c.note_id then st.2 ++ [c.note_id] else st.2))
    ((0 : Nat), ([] : List Nat))

/-- The review pass of `main` from the prune step onward (lines 511-589):
prune old AI comments (`delete_mr_note` swallows HTTP failures, recorded here
in `delete_failures`), ensure the summary note, run the per-file loop, and
update the summary note with the final counts. `notes` is the note list
fetched after pruning (line 523); `deleteStatus` gives the HTTP status of
each delete call by note id. -/
def runPass (discussions : List Discussion) (notes : List MRNote)
    (changes : List FileChange) (deleteStatus : Nat → Nat)
    (contentOf : Str → Option Str) (decodedOf : Str → Option (List AiItem))
    (freshId : Nat) : PassResult :=
  let pr := pruneCount discussions deleteStatus
  let es := ensure_summary notes freshId
  let loop := reviewLoop changes contentOf decodedOf
  let summary := renderSummary loop.1 loop.2.1 pr.1
  { deleted_count := pr.1
    delete_failures := pr.2
    summary_note_id := es.1
    reviewed_files := loop.1
    total_comments := loop.2.1
    published := loop.2.2
    final_summary := summary
    notes_after := es.2.map (fun n => if n.id = es.1 then { n with body := summary } else n) }

/-- Number of delete calls during Prune that actually succeed (status below
400) — the quantity the specification says the final summary reports. -/
def successfulDeletes (discussions : List Discussion) (deleteStatus : Nat → Nat) : Nat :=
  ((get_existing_ai_comments discussions).filter
    (fun c => deleteStatus c.note_id < 400)).length

/-- Count of notes carrying the summary marker. -/
def countSummaryNotes (notes : List MRNote) : Nat :=
  (notes.filter (fun n => isSummaryBody n.body)).length

/-!
## Structured unified diffs

A well-formed single-file unified diff (the source parses one file's diff per
call), given structurally and rendered to text. The spec-side line numbers
are computed from the structure, following the specification's words.
-/

/-- One content line of a hunk: added, deleted, context, or a
`\ No newline at end of file` marker. -/
inductive HunkLine where
  | add (c : Str)
  | del (c : Str)
  | ctx (c : Str)
  | nonl (c : Str)
deriving DecidableEq

/-- One hunk: `@@ -oldStart,oldCount +newStart,newCount @@` plus its body. -/
structure Hunk where
  oldStart : Nat
  oldCount : Nat
  newStart : Nat
  newCount : Nat
  body : List HunkLine
deriving DecidableEq

/-- A single-file unified diff: preamble lines (file headers and similar)
followed by hunks. -/
structure UnifiedDiff where
  preamble : List Str
  hunks : List Hunk
deriving DecidableEq

/-- Render one hunk body line with its unified-diff prefix character. -/
def renderHunkLine : HunkLine → Str
  | .add c => '+' :: c
  | .del c => '-' :: c
  | .ctx c => ' ' :: c
  | .nonl c => '\\' :: c

/-- Render a hunk header `@@ -o,oc +n,nc @@`. -/
def renderHeader (h : Hunk) : Str :=
  str "@@ -" ++ natDigits h.oldStart ++ str "," ++ natDigits h.oldCount
  ++ str " +" ++ natDigits h.newStart ++ str "," ++ natDigits h.newCount
  ++ str " @@"

/-- Render the line list of a list of hunks. -/
def renderHunks : List Hunk → List Str
  | [] => []
  | h :: t => (renderHeader h :: h.body.map renderHunkLine) ++ renderHunks t

/-- Render a structured diff to its text (lines joined by newlines). -/
def renderDiff (d : UnifiedDiff) : Str :=
  joinWith '\n' (d.preamble ++ renderHunks d.hunks)

/-- Number of new-file lines a hunk body covers (added plus context lines). -/
def countNewLines : List HunkLine → Nat
  | [] => 0
  | .add _ :: r => countNewLines r + 1
  | .del _ :: r => countNewLines r
  | .ctx _ :: r => countNewLines r + 1
  | .nonl _ :: r => countNewLines r

/-- Number of old-file lines a hunk body covers (deleted plus context lines). -/
def countOldLines : List HunkLine → Nat
  | [] => 0
  | .add _ :: r => countOldLines r
  | .del _ :: r => countOldLines r + 1
  | .ctx _ :: r => countOldLines r + 1
  | .nonl _ :: r => countOldLines r

/-- A hunk body line is renderable as one text line: its content holds no
newline. -/
def hunkLineOk : HunkLine → Bool
  | .add c => !c.contains '\n'
  | .del c => !c.contains '\n'
  | .ctx c => !c.contains '\n'
  | .nonl c => !c.contains '\n'

/-- A hunk body line whose rendering does not collide with the file-header
forms the parser treats specially: an added line must not render as `+++...`
and a deleted line must not render as `---...`. Well-formed unified diffs MAY
contain such collisions (an added line whose content starts with `++`, or a
deleted line whose content starts with `--`); on them the parser misbehaves —
see the claim C1 counterexample. -/
def hunkLineHeaderFree : HunkLine → Bool
  | .add c => !(startsWith (str "++") c)
  | .del c => !(startsWith (str "--") c)
  | .ctx _ => true
  | .nonl _ => true

/-- All body lines of a hunk are collision-free in the sense of
`hunkLineHeaderFree`. -/
def hunkHeaderFree (h : Hunk) : Bool :=
  h.body.all hunkLineHeaderFree

/-- No content line of the diff renders in the `+++`/`---` file-header form. -/
def headerFreeDiff (d : UnifiedDiff) : Bool :=
  d.hunks.all hunkHeaderFree

/-- A hunk is well-formed: body lines are renderable and the header counts
match the body. -/
def hunkOk (h : Hunk) : Bool :=
  h.body.all hunkLineOk
  && countNewLines h.body == h.newCount
  && countOldLines h.body == h.oldCount

/-- Hunks appear in increasing new-file order and do not overlap. -/
def hunksOrdered : List Hunk → Bool
  | [] => true
  | [_] => true
  | h1 :: h2 :: t => (h1.newStart + h1.newCount ≤ h2.newStart) && hunksOrdered (h2 :: t)

/-- A preamble line holds no newline, is not a hunk header, and is not an
added content line (file headers `+++ b/...`, `--- a/...`, `diff --git ...`,
`index ...` all qualify). -/
def preambleLineOk (l : Str) : Bool :=
  !l.contains '\n' && !(startsWith (str "@@") l)
  && (!(startsWith (str "+") l) || startsWith (str "+++") l)

/-- Well-formedness of a structured single-file unified diff. -/
def wellFormedDiff (d : UnifiedDiff) : Bool :=
  d.preamble.all preambleLineOk && d.hunks.all hunkOk && hunksOrdered d.hunks

/-- The specification's description of the eligible lines of one hunk: walk
the body from the hunk's new-file start; an added line's current position is
eligible and advances the position, a context line advances it, a deleted
line does not. -/
def hunkNewLines (pos : Int) : List HunkLine → List Int
  | [] => []
  | .add _ :: r => pos :: hunkNewLines (pos + 1) r
  | .del _ :: r => hunkNewLines pos r
  | .ctx _ :: r => hunkNewLines (pos + 1) r
  | .nonl _ :: r => hunkNewLines pos r

/-- Spec-side definition (from the specification's words): the new-file line
numbers of the `+`-prefixed content lines of a diff, hunk by hunk. -/
def specNewFileLines : List Hunk → List Int
  | [] => []
  | h :: t => hunkNewLines (h.newStart : Int) h.body ++ specNewFileLines t

/-!
## String-model lemmas
-/

theorem splitOnChar_ne_nil (sep : Char) (l : Str) : splitOnChar sep l ≠ [] := by
  induction l with
  | nil => simp [splitOnChar]
  | cons c rest ih =>
    simp only [splitOnChar]
    match hm : splitOnChar sep rest with
    | [] => exact absurd hm ih
    | h :: t =>
      by_cases hc : c = sep <;> simp [hc]

theorem splitOnChar_of_not_mem {sep : Char} {l : Str} (h : sep ∉ l) :
    splitOnChar sep l = [l] := by
  induction l with
  | nil => rfl
  | cons c rest ih =>
    have hcs : c ≠ sep := fun hc => h (hc ▸ List.mem_cons_self c rest)
    have hrest : sep ∉ rest := fun hm => h (List.mem_cons_of_mem c hm)
    simp only [splitOnChar, ih hrest]
    rw [if_neg hcs]

theorem splitOnChar_cons_self (sep : Char) (B : Str) :
    splitOnChar sep (sep :: B) = [] :: splitOnChar sep B := by
  cases hB : splitOnChar sep B with
  | nil => exact absurd hB (splitOnChar_ne_nil sep B)
  | cons h t => simp [splitOnChar, hB]

theorem splitOnChar_append {sep : Char} {A : Str} (B : Str) (h : sep ∉ A) :
    splitOnChar sep (A ++ sep :: B) = A :: splitOnChar sep B := by
  induction A with
  | nil => simpa using splitOnChar_cons_self sep B
  | cons c rest ih =>
    have hcs : c ≠ sep := fun hc => h (hc ▸ List.mem_cons_self c rest)
    have hrest : sep ∉ rest := fun hm => h (List.mem_cons_of_mem c hm)
    have hr := ih hrest
    simp only [List.cons_append, splitOnChar, List.append_eq, hr]
    rw [if_neg hcs]

theorem splitOnAtAt_append {A : Str} (B : Str) (h : '@' ∉ A) :
    splitOnAtAt (A ++ '@' :: '@' :: B) = A :: splitOnAtAt B := by
  induction A with
  | nil => simp [splitOnAtAt]
  | cons c rest ih =>
    have hc : c ≠ '@' := fun hc => h (hc ▸ List.mem_cons_self c rest)
    have hrest : '@' ∉ rest := fun hm => h (List.mem_cons_of_mem c hm)
    cases rest with
    | nil =>
      simp only [List.nil_append] at ih
      simp [splitOnAtAt, hc, ih hrest]
    | cons c2 rest2 =>
      simp only [List.cons_append]
      rw [show splitOnAtAt (c :: c2 :: (rest2 ++ '@' :: '@' :: B))
            = if c = '@' ∧ c2 = '@' then [] :: splitOnAtAt (rest2 ++ '@' :: '@' :: B)
              else match splitOnAtAt (c2 :: (rest2 ++ '@' :: '@' :: B)) with
                | [] => [[c]]
                | h :: t => (c :: h) :: t from rfl]
      have hcc : ¬ (c = '@' ∧ c2 = '@') := fun hp => hc hp.1
      simp only [if_neg hcc]
      have := ih hrest
      simp only [List.cons_append] at this
      rw [this]

theorem join_split {lines : List Str} (hne : lines ≠ [])
    (h : ∀ l ∈ lines, l.contains '\n' = false) :
    splitOnChar '\n' (joinWith '\n' lines) = lines := by
  induction lines with
  | nil => exact absurd rfl hne
  | cons l rest ih =>
    cases rest with
    | nil =>
      have hl : '\n' ∉ l := by simpa using h l (List.mem_cons_self l [])
      simpa [joinWith] using splitOnChar_of_not_mem hl
    | cons l2 rest2 =>
      have hl : '\n' ∉ l := by simpa using h l (List.mem_cons_self l (l2 :: rest2))
      have hrest : ∀ x ∈ l2 :: rest2, x.contains '\n' = false := fun x hx =>
        h x (List.mem_cons_of_mem l hx)
      simp only [joinWith]
      rw [splitOnChar_append _ hl, ih (by simp) hrest]

theorem isPyDigit_digitCh {d : Nat} (h : d < 10) : isPyDigit (digitCh d) = true := by
  interval_cases d <;> decide

theorem digitVal_digitCh {d : Nat} (h : d < 10) : digitVal (digitCh d) = d := by
  interval_cases d <;> decide

theorem isPyDigit_spec {c x : Char} (h : isPyDigit c = true)
    (hx : isPyDigit x = false) : c ≠ x := by
  intro he
  rw [he, hx] at h
  exact Bool.false_ne_true h

theorem not_pySpace_of_digit {c : Char} (h : isPyDigit c = true) :
    pySpace c = false := by
  cases hs : pySpace c with
  | false => rfl
  | true =>
    exfalso
    simp only [pySpace, Bool.or_eq_true, decide_eq_true_eq] at hs
    rcases hs with ((((h1 | h1) | h1) | h1) | h1) | h1 <;>
      (subst h1; exact Bool.false_ne_true h)

theorem natDigitsAux_digits : ∀ fuel n, ∀ c ∈ natDigitsAux fuel n, isPyDigit c = true := by
  intro fuel
  induction fuel with
  | zero => intro n c hc; simp [natDigitsAux] at hc
  | succ f ih =>
    intro n c hc
    simp only [natDigitsAux] at hc
    by_cases h10 : n < 10
    · rw [if_pos h10] at hc
      simp only [List.mem_singleton] at hc
      exact hc ▸ isPyDigit_digitCh h10
    · rw [if_neg h10] at hc
      rcases List.mem_append.mp hc with hm | hm
      · exact ih (n / 10) c hm
      · simp only [List.mem_singleton] at hm
        exact hm ▸ isPyDigit_digitCh (Nat.mod_lt n (by omega))

theorem natDigitsAux_ne_nil {fuel n : Nat} (h : 0 < fuel) : natDigitsAux fuel n ≠ [] := by
  cases fuel with
  | zero => omega
  | succ f =>
    simp only [natDigitsAux]
    by_cases h10 : n < 10
    · simp [h10]
    · simp [h10]

theorem digitsVal_go : ∀ fuel n a, n < fuel →
    List.foldl (fun a c => 10 * a + digitVal c) a (natDigitsAux fuel n)
      = a * 10 ^ (natDigitsAux fuel n).length + n := by
  intro fuel
  induction fuel with
  | zero => intro n a h; omega
  | succ f ih =>
    intro n a h
    simp only [natDigitsAux]
    by_cases h10 : n < 10
    · rw [if_pos h10]
      simp only [List.foldl_cons, List.foldl_nil, List.length_cons, List.length_nil,
        digitVal_digitCh h10, Nat.zero_add, pow_one]
      omega
    · rw [if_neg h10]
      have hdiv : n / 10 < f := by
        have h1 : n / 10 < n := Nat.div_lt_self (by omega) (by omega)
        omega
      have hmod : n % 10 < 10 := Nat.mod_lt n (by omega)
      rw [List.foldl_append]
      rw [ih (n / 10) a hdiv]
      simp only [List.foldl_cons, List.foldl_nil, List.length_append, List.length_cons,
        List.length_nil, digitVal_digitCh hmod, Nat.zero_add]
      rw [Nat.pow_succ, ← Nat.mul_assoc]
      generalize (a * 10 ^ (natDigitsAux f (n / 10)).length : Nat) = Q
      omega

theorem digitsBody_cons (c : Char) (rest : Str) :
    digitsBody (c :: rest)
      = if c = '_' then
          (match rest with
           | [] => false
           | d :: rest2 => isPyDigit d && digitsBody rest2)
        else isPyDigit c && digitsBody rest := by
  cases rest with
  | nil => by_cases hc : c = '_' <;> simp [digitsBody, hc]
  | cons d r2 => by_cases hc : c = '_' <;> simp [digitsBody, hc]

theorem digitsBody_of_digits {l : Str} (h : ∀ c ∈ l, isPyDigit c = true) :
    digitsBody l = true := by
  induction l with
  | nil => rfl
  | cons c rest ih =>
    have hc := h c (List.mem_cons_self c rest)
    have hcu : c ≠ '_' := isPyDigit_spec hc (by decide)
    rw [digitsBody_cons, if_neg hcu, hc, ih (fun x hx => h x (List.mem_cons_of_mem c hx))]
    rfl

theorem validNum_of_digits {l : Str} (hne : l ≠ []) (h : ∀ c ∈ l, isPyDigit c = true) :
    validNum l = true := by
  cases l with
  | nil => exact absurd rfl hne
  | cons c rest =>
    simp only [validNum, h c (List.mem_cons_self c rest), Bool.true_and]
    exact digitsBody_of_digits (fun x hx => h x (List.mem_cons_of_mem c hx))

theorem dropWhile_of_not_head {p : Char → Bool} {l : Str}
    (h : ∀ c ∈ l, p c = false) : l.dropWhile p = l := by
  cases l with
  | nil => rfl
  | cons c rest => simp [List.dropWhile_cons, h c (List.mem_cons_self c rest)]

theorem pyStrip_of_no_space {l : Str} (h : ∀ c ∈ l, pySpace c = false) :
    pyStrip l = l := by
  unfold pyStrip
  rw [dropWhile_of_not_head h]
  rw [dropWhile_of_not_head (fun c hc => h c (List.mem_reverse.mp hc))]
  exact List.reverse_reverse l

theorem pyNatNum_natDigits (n : Nat) : pyNatNum (natDigits n) = some n := by
  have hd : ∀ c ∈ natDigits n, isPyDigit c = true := natDigitsAux_digits (n + 1) n
  have hne : natDigits n ≠ [] := natDigitsAux_ne_nil (by omega)
  have hvalid : validNum (natDigits n) = true := validNum_of_digits hne hd
  have hfilter : (natDigits n).filter (fun c => !(c == '_')) = natDigits n := by
    apply List.filter_eq_self.mpr
    intro c hc
    have : c ≠ '_' := isPyDigit_spec (hd c hc) (by decide)
    simpa using this
  unfold pyNatNum
  rw [if_pos hvalid, hfilter]
  unfold digitsVal
  rw [show natDigits n = natDigitsAux (n + 1) n from rfl, digitsVal_go (n + 1) n 0 (by omega)]
  simp

theorem pyInt_of_digit_head {c : Char} {rest : Str} (hc : isPyDigit c = true)
    (hstrip : pyStrip (c :: rest) = c :: rest) :
    pyInt (c :: rest) = (pyNatNum (c :: rest)).map (fun k => (k : Int)) := by
  have hplus : c ≠ '+' := isPyDigit_spec hc (by decide)
  have hminus : c ≠ '-' := isPyDigit_spec hc (by decide)
  unfold pyInt
  simp only [hstrip]
  rw [if_neg hplus, if_neg hminus]

theorem pyInt_natDigits (n : Nat) : pyInt (natDigits n) = some (n : Int) := by
  have hd : ∀ c ∈ natDigits n, isPyDigit c = true := natDigitsAux_digits (n + 1) n
  have hstrip : pyStrip (natDigits n) = natDigits n :=
    pyStrip_of_no_space (fun c hc => not_pySpace_of_digit (hd c hc))
  have hnum : pyNatNum (natDigits n) = some n := pyNatNum_natDigits n
  cases hn : natDigits n with
  | nil => exact absurd hn (natDigitsAux_ne_nil (by omega))
  | cons c rest =>
    have hc : isPyDigit c = true := hd c (by rw [hn]; exact List.mem_cons_self c rest)
    rw [hn] at hstrip hnum
    rw [pyInt_of_digit_head hc hstrip, hnum]
    rfl

theorem not_mem_natDigits {x : Char} (hx : isPyDigit x = false) (k : Nat) :
    x ∉ natDigits k := fun hm =>
  Bool.false_ne_true (hx ▸ natDigitsAux_digits (k + 1) k x hm)

theorem pyStrip_append_space {D : Str} (hne : D ≠ []) (hno : ∀ c ∈ D, pySpace c = false) :
    pyStrip (D ++ [' ']) = D := by
  cases D with
  | nil => exact absurd rfl hne
  | cons c D' =>
    have hc : pySpace c = false := hno c (List.mem_cons_self c D')
    unfold pyStrip
    rw [List.cons_append, List.dropWhile_cons, if_neg (by simp [hc])]
    have h1 : (c :: (D' ++ [' '])).reverse = ' ' :: (D'.reverse ++ [c]) := by simp
    rw [h1, List.dropWhile_cons, if_pos (by decide)]
    have h2 : D'.reverse ++ [c] = (c :: D').reverse := by simp
    rw [h2, dropWhile_of_not_head (fun x hx => hno x (List.mem_reverse.mp hx)),
      List.reverse_reverse]

/-!
## Behaviour of the parse step on rendered lines
-/

theorem renderHeader_eq (h : Hunk) :
    renderHeader h
      = ('@' :: '@' :: ' ' :: '-' ::
          (natDigits h.oldStart ++ ',' :: (natDigits h.oldCount ++ [' '])))
        ++ '+' :: (natDigits h.newStart ++ ',' :: (natDigits h.newCount ++ [' ', '@', '@'])) := by
  show ((['@', '@', ' ', '-'] ++ natDigits h.oldStart ++ [','] ++ natDigits h.oldCount
      ++ [' ', '+'] ++ natDigits h.newStart ++ [','] ++ natDigits h.newCount
      ++ [' ', '@', '@']) : Str) = _
  simp [List.append_assoc]

theorem nm_cons {x c : Char} {l : Str} (h1 : x ≠ c) (h2 : x ∉ l) : x ∉ c :: l :=
  fun hm => (List.mem_cons.mp hm).elim h1 h2

theorem nm_app {x : Char} {A B : Str} (h1 : x ∉ A) (h2 : x ∉ B) : x ∉ A ++ B :=
  fun hm => (List.mem_append.mp hm).elim h1 h2

theorem headerNewStart_render (h : Hunk) :
    headerNewStart (renderHeader h) = some ((h.newStart : Int)) := by
  have hA : '+' ∉ ('@' :: '@' :: ' ' :: '-' ::
      (natDigits h.oldStart ++ ',' :: (natDigits h.oldCount ++ [' ']))) :=
    nm_cons (by decide) (nm_cons (by decide) (nm_cons (by decide) (nm_cons (by decide)
      (nm_app (not_mem_natDigits (by decide) _)
        (nm_cons (by decide)
          (nm_app (not_mem_natDigits (by decide) _) (by decide)))))))
  have hB : '+' ∉ (natDigits h.newStart ++ ',' :: (natDigits h.newCount ++ [' ', '@', '@'])) :=
    nm_app (not_mem_natDigits (by decide) _)
      (nm_cons (by decide)
        (nm_app (not_mem_natDigits (by decide) _) (by decide)))
  unfold headerNewStart
  rw [renderHeader_eq, splitOnChar_append _ hA, splitOnChar_of_not_mem hB]
  simp only
  have hC : (natDigits h.newStart ++ ',' :: (natDigits h.newCount ++ [' ', '@', '@']))
      = (natDigits h.newStart ++ ',' :: (natDigits h.newCount ++ [' '])) ++ '@' :: '@' :: [] := by
    simp [List.append_assoc]
  have hCat : '@' ∉ (natDigits h.newStart ++ ',' :: (natDigits h.newCount ++ [' '])) :=
    nm_app (not_mem_natDigits (by decide) _)
      (nm_cons (by decide)
        (nm_app (not_mem_natDigits (by decide) _) (by decide)))
  rw [hC, splitOnAtAt_append _ hCat]
  simp only [List.headD_cons]
  have hD : (natDigits h.newStart ++ ',' :: (natDigits h.newCount ++ [' ']))
      = (natDigits h.newStart ++ ',' :: natDigits h.newCount) ++ [' '] := by
    simp [List.append_assoc]
  have hDno : ∀ c ∈ natDigits h.newStart ++ ',' :: natDigits h.newCount, pySpace c = false := by
    intro c hc
    rcases List.mem_append.mp hc with h1 | h1
    · exact not_pySpace_of_digit (natDigitsAux_digits _ _ c h1)
    · rcases List.mem_cons.mp h1 with h2 | h2
      · rw [h2]; rfl
      · exact not_pySpace_of_digit (natDigitsAux_digits _ _ c h2)
  rw [hD, pyStrip_append_space (by simp) hDno]
  have hmem : ',' ∈ natDigits h.newStart ++ ',' :: natDigits h.newCount := by
    exact List.mem_append.mpr (Or.inr (List.mem_cons_self _ _))
  rw [if_pos hmem]
  rw [splitOnChar_append _ (not_mem_natDigits (by decide) _)]
  simp only [List.headD_cons]
  exact pyInt_natDigits h.newStart

theorem startsWith_atat_render (h : Hunk) :
    startsWith (str "@@") (renderHeader h) = true := rfl

theorem parse_step_header (h : Hunk) (c : Int) (acc : List Int) :
    parse_diff_step (c, acc) (renderHeader h) = ((h.newStart : Int), acc) := by
  unfold parse_diff_step
  rw [if_pos (startsWith_atat_render h), headerNewStart_render h]

theorem parse_step_add {c : Str} (hok : startsWith (str "++") c = false)
    (s : Int) (acc : List Int) :
    parse_diff_step (s, acc) ('+' :: c) = (s + 1, acc ++ [s]) := by
  have h1 : startsWith (str "@@") ('+' :: c) = false := rfl
  have h2 : startsWith (str "+") ('+' :: c) = true := rfl
  have h3 : startsWith (str "+++") ('+' :: c) = startsWith (str "++") c := rfl
  simp [parse_diff_step, h1, h2, h3, hok]

theorem parse_step_del {c : Str} (hok : startsWith (str "--") c = false)
    (s : Int) (acc : List Int) :
    parse_diff_step (s, acc) ('-' :: c) = (s, acc) := by
  have h1 : startsWith (str "@@") ('-' :: c) = false := rfl
  have h2 : startsWith (str "+") ('-' :: c) = false := rfl
  have h3 : startsWith (str "-") ('-' :: c) = true := rfl
  have h4 : startsWith (str "---") ('-' :: c) = startsWith (str "--") c := rfl
  simp [parse_diff_step, h1, h2, h3, h4, hok]

theorem parse_step_ctx (c : Str) (s : Int) (acc : List Int) :
    parse_diff_step (s, acc) (' ' :: c) = (s + 1, acc) := by
  have h1 : startsWith (str "@@") (' ' :: c) = false := rfl
  have h2 : startsWith (str "+") (' ' :: c) = false := rfl
  have h3 : startsWith (str "-") (' ' :: c) = false := rfl
  have h4 : startsWith (str "\\") (' ' :: c) = false := rfl
  simp [parse_diff_step, h1, h2, h3, h4]

theorem parse_step_nonl (c : Str) (s : Int) (acc : List Int) :
    parse_diff_step (s, acc) ('\\' :: c) = (s, acc) := by
  have h1 : startsWith (str "@@") ('\\' :: c) = false := rfl
  have h2 : startsWith (str "+") ('\\' :: c) = false := rfl
  have h3 : startsWith (str "-") ('\\' :: c) = false := rfl
  have h4 : startsWith (str "\\") ('\\' :: c) = true := rfl
  simp [parse_diff_step, h1, h2, h3, h4]

theorem parse_step_preamble {l : Str} (hok : preambleLineOk l = true)
    (c : Int) (acc : List Int) :
    ∃ c', parse_diff_step (c, acc) l = (c', acc) := by
  simp only [preambleLineOk, Bool.and_eq_true, Bool.not_eq_true'] at hok
  obtain ⟨⟨-, hat⟩, hplus⟩ := hok
  unfold parse_diff_step
  rw [if_neg (by simp [hat])]
  have h2 : (startsWith (str "+") l && !startsWith (str "+++") l) = false := by
    cases hp : startsWith (str "+") l
    · simp [hp]
    · have hh : startsWith (str "+++") l = true := by
        rw [hp] at hplus
        simpa using hplus
      simp [hp, hh]
  rw [if_neg (by simp [h2])]
  by_cases h3 : (startsWith (str "-") l && !startsWith (str "---") l) = true
  · rw [if_pos h3]
    exact ⟨c, rfl⟩
  · rw [if_neg h3]
    by_cases h4 : (!startsWith (str "\\") l) = true
    · rw [if_pos h4]
      exact ⟨c + 1, rfl⟩
    · rw [if_neg h4]
      exact ⟨c, rfl⟩

theorem foldl_preamble {ls : List Str} (hok : ∀ l ∈ ls, preambleLineOk l = true) :
    ∀ (c : Int) (acc : List Int),
      ∃ c', List.foldl parse_diff_step (c, acc) ls = (c', acc) := by
  induction ls with
  | nil => exact fun c acc => ⟨c, rfl⟩
  | cons l rest ih =>
    intro c acc
    obtain ⟨c1, h1⟩ := parse_step_preamble (hok l (List.mem_cons_self _ _)) c acc
    rw [List.foldl_cons, h1]
    exact ih (fun x hm => hok x (List.mem_cons_of_mem _ hm)) c1 acc

theorem foldl_body {body : List HunkLine}
    (hok : ∀ l ∈ body, hunkLineHeaderFree l = true) :
    ∀ (s : Int) (acc : List Int),
      List.foldl parse_diff_step (s, acc) (body.map renderHunkLine)
        = (s + (countNewLines body : Int), acc ++ hunkNewLines s body) := by
  induction body with
  | nil =>
    intro s acc
    simp [countNewLines, hunkNewLines]
  | cons hl rest ih =>
    intro s acc
    have hokh := hok hl (List.mem_cons_self _ _)
    have hokr : ∀ l ∈ rest, hunkLineHeaderFree l = true :=
      fun l hm => hok l (List.mem_cons_of_mem _ hm)
    cases hl with
    | add c =>
      have hpp : startsWith (str "++") c = false := by
        simp only [hunkLineHeaderFree, Bool.not_eq_true'] at hokh
        exact hokh
      simp only [List.map_cons, List.foldl_cons, renderHunkLine, parse_step_add hpp]
      rw [ih hokr]
      simp only [Prod.mk.injEq]
      refine ⟨?_, ?_⟩
      · simp only [countNewLines]
        push_cast
        ring
      · simp [hunkNewLines, List.append_assoc]
    | del c =>
      have hpp : startsWith (str "--") c = false := by
        simp only [hunkLineHeaderFree, Bool.not_eq_true'] at hokh
        exact hokh
      simp only [List.map_cons, List.foldl_cons, renderHunkLine, parse_step_del hpp]
      rw [ih hokr]
      simp [countNewLines, hunkNewLines]
    | ctx c =>
      simp only [List.map_cons, List.foldl_cons, renderHunkLine, parse_step_ctx]
      rw [ih hokr]
      simp only [Prod.mk.injEq]
      refine ⟨?_, ?_⟩
      · simp only [countNewLines]
        push_cast
        ring
      · simp [hunkNewLines]
    | nonl c =>
      simp only [List.map_cons, List.foldl_cons, renderHunkLine, parse_step_nonl]
      rw [ih hokr]
      simp [countNewLines, hunkNewLines]

theorem foldl_hunks {hunks : List Hunk}
    (hhf : ∀ h ∈ hunks, hunkHeaderFree h = true) :
    ∀ (c : Int) (acc : List Int),
      ∃ c', List.foldl parse_diff_step (c, acc) (renderHunks hunks)
        = (c', acc ++ specNewFileLines hunks) := by
  induction hunks with
  | nil =>
    intro c acc
    exact ⟨c, by simp [renderHunks, specNewFileLines]⟩
  | cons h t ih =>
    intro c acc
    have hokh := hhf h (List.mem_cons_self _ _)
    have hbody : ∀ l ∈ h.body, hunkLineHeaderFree l = true := by
      simp only [hunkHeaderFree, List.all_eq_true] at hokh
      exact hokh
    simp only [renderHunks, List.cons_append, List.foldl_cons]
    rw [List.foldl_append, parse_step_header, foldl_body hbody]
    obtain ⟨c', hc'⟩ := ih (fun x hm => hhf x (List.mem_cons_of_mem _ hm))
      ((h.newStart : Int) + (countNewLines h.body : Int))
      (acc ++ hunkNewLines (h.newStart : Int) h.body)
    refine ⟨c', ?_⟩
    rw [hc']
    simp [specNewFileLines, List.append_assoc]

theorem renderHeader_no_nl (h : Hunk) : (renderHeader h).contains '\n' = false := by
  have hm : '\n' ∉ renderHeader h := by
    rw [renderHeader_eq]
    refine nm_app ?_ ?_
    · exact nm_cons (by decide) (nm_cons (by decide) (nm_cons (by decide) (nm_cons (by decide)
        (nm_app (not_mem_natDigits (by decide) _)
          (nm_cons (by decide)
            (nm_app (not_mem_natDigits (by decide) _) (by decide)))))))
    · exact nm_cons (by decide)
        (nm_app (not_mem_natDigits (by decide) _)
          (nm_cons (by decide)
            (nm_app (not_mem_natDigits (by decide) _) (by decide))))
  simpa using hm

theorem renderHunkLine_no_nl {l : HunkLine} (hok : hunkLineOk l = true) :
    (renderHunkLine l).contains '\n' = false := by
  have hm : '\n' ∉ renderHunkLine l := by
    cases l with
    | add c =>
      simp only [hunkLineOk, Bool.not_eq_true'] at hok
      exact nm_cons (by decide) (by simpa using hok)
    | del c =>
      simp only [hunkLineOk, Bool.not_eq_true'] at hok
      exact nm_cons (by decide) (by simpa using hok)
    | ctx c =>
      simp only [hunkLineOk, Bool.not_eq_true'] at hok
      exact nm_cons (by decide) (by simpa using hok)
    | nonl c =>
      simp only [hunkLineOk, Bool.not_eq_true'] at hok
      exact nm_cons (by decide) (by simpa using hok)
  simpa using hm

theorem renderHunks_no_nl {hunks : List Hunk} (hok : ∀ h ∈ hunks, hunkOk h = true) :
    ∀ l ∈ renderHunks hunks, l.contains '\n' = false := by
  induction hunks with
  | nil => intro l hm; simp [renderHunks] at hm
  | cons h t ih =>
    intro l hm
    have hokh := hok h (List.mem_cons_self _ _)
    simp only [renderHunks, List.cons_append, List.mem_cons, List.mem_append] at hm
    rcases hm with rfl | hm2 | hm3
    · exact renderHeader_no_nl h
    · obtain ⟨x, hx, rfl⟩ := List.mem_map.mp hm2
      have hbody : hunkLineOk x = true := by
        simp only [hunkOk, Bool.and_eq_true, List.all_eq_true] at hokh
        exact hokh.1.1 x hx
      exact renderHunkLine_no_nl hbody
    · exact ih (fun y hy => hok y (List.mem_cons_of_mem _ hy)) l hm3

theorem parse_render {d : UnifiedDiff} (hwf : wellFormedDiff d = true)
    (hhf : headerFreeDiff d = true) :
    parse_diff_for_new_lines (renderDiff d) = specNewFileLines d.hunks := by
  simp only [wellFormedDiff, Bool.and_eq_true, List.all_eq_true] at hwf
  simp only [headerFreeDiff, List.all_eq_true] at hhf
  obtain ⟨⟨hpre, hhunks⟩, -⟩ := hwf
  by_cases hnil : d.preamble ++ renderHunks d.hunks = []
  · have hp : d.preamble = [] := by
      rcases List.append_eq_nil.mp hnil with ⟨h1, -⟩
      exact h1
    have hh : d.hunks = [] := by
      rcases List.append_eq_nil.mp hnil with ⟨-, h2⟩
      cases hx : d.hunks with
      | nil => rfl
      | cons a b =>
        rw [hx] at h2
        simp [renderHunks] at h2
    unfold renderDiff
    rw [hp, hh]
    decide
  · have hnl : ∀ l ∈ d.preamble ++ renderHunks d.hunks, l.contains '\n' = false := by
      intro l hm
      rcases List.mem_append.mp hm with h1 | h1
      · have := hpre l h1
        simp only [preambleLineOk, Bool.and_eq_true, Bool.not_eq_true'] at this
        exact this.1.1
      · exact renderHunks_no_nl hhunks l h1
    unfold parse_diff_for_new_lines renderDiff
    rw [join_split hnil hnl, List.foldl_append]
    obtain ⟨c1, hc1⟩ := foldl_preamble hpre (0 : Int) ([] : List Int)
    rw [hc1]
    obtain ⟨c2, hc2⟩ := foldl_hunks hhf c1 ([] : List Int)
    rw [hc2]
    simp

theorem hunkNewLines_bounds :
    ∀ (body : List HunkLine) (pos : Int), ∀ x ∈ hunkNewLines pos body,
      pos ≤ x ∧ x < pos + (countNewLines body : Int) := by
  intro body
  induction body with
  | nil =>
    intro pos x hx
    simp [hunkNewLines] at hx
  | cons hl rest ih =>
    intro pos x hx
    cases hl with
    | add c =>
      simp only [hunkNewLines, List.mem_cons] at hx
      rcases hx with rfl | hx
      · simp only [countNewLines]
        push_cast
        omega
      · have := ih (pos + 1) x hx
        simp only [countNewLines]
        push_cast at this ⊢
        omega
    | del c =>
      simp only [hunkNewLines] at hx
      have := ih pos x hx
      simpa [countNewLines] using this
    | ctx c =>
      simp only [hunkNewLines] at hx
      have := ih (pos + 1) x hx
      simp only [countNewLines]
      push_cast at this ⊢
      omega
    | nonl c =>
      simp only [hunkNewLines] at hx
      have := ih pos x hx
      simpa [countNewLines] using this

theorem hunkNewLines_pairwise :
    ∀ (body : List HunkLine) (pos : Int), (hunkNewLines pos body).Pairwise (· < ·) := by
  intro body
  induction body with
  | nil => intro pos; simp [hunkNewLines]
  | cons hl rest ih =>
    intro pos
    cases hl with
    | add c =>
      simp only [hunkNewLines]
      refine List.Pairwise.cons ?_ (ih (pos + 1))
      intro y hy
      have := (hunkNewLines_bounds rest (pos + 1) y hy).1
      omega
    | del c => exact ih pos
    | ctx c => exact ih (pos + 1)
    | nonl c => exact ih pos

theorem specNewFileLines_lb :
    ∀ (t : List Hunk) (h : Hunk), hunksOrdered (h :: t) = true →
      ∀ x ∈ specNewFileLines (h :: t), (h.newStart : Int) ≤ x := by
  intro t
  induction t with
  | nil =>
    intro h _ x hx
    simp only [specNewFileLines, List.append_nil] at hx
    exact (hunkNewLines_bounds _ _ x hx).1
  | cons h2 t2 ih =>
    intro h hord x hx
    have hparts : (h.newStart + h.newCount ≤ h2.newStart)
        ∧ hunksOrdered (h2 :: t2) = true := by
      simpa [hunksOrdered] using hord
    rcases List.mem_append.mp hx with h1 | h1
    · exact (hunkNewLines_bounds _ _ x h1).1
    · have hge := ih h2 hparts.2 x h1
      have hle := hparts.1
      push_cast at hge ⊢
      omega

theorem specNewFileLines_pairwise :
    ∀ (hunks : List Hunk), (∀ h ∈ hunks, hunkOk h = true) →
      hunksOrdered hunks = true → (specNewFileLines hunks).Pairwise (· < ·) := by
  intro hunks
  induction hunks with
  | nil =>
    intro _ _
    simp [specNewFileLines]
  | cons h t ih =>
    intro hok hord
    have hordt : hunksOrdered t = true := by
      cases t with
      | nil => rfl
      | cons h2 t2 =>
        have : (h.newStart + h.newCount ≤ h2.newStart)
            ∧ hunksOrdered (h2 :: t2) = true := by simpa [hunksOrdered] using hord
        exact this.2
    simp only [specNewFileLines]
    rw [List.pairwise_append]
    refine ⟨hunkNewLines_pairwise _ _,
      ih (fun x hm => hok _ (List.mem_cons_of_mem _ hm)) hordt, ?_⟩
    intro a ha b hb
    have hcnt : countNewLines h.body = h.newCount := by
      have hh := hok h (List.mem_cons_self _ _)
      simp only [hunkOk, Bool.and_eq_true, beq_iff_eq] at hh
      exact hh.1.2
    have ha2 := (hunkNewLines_bounds h.body _ a ha).2
    rw [hcnt] at ha2
    cases t with
    | nil => simp [specNewFileLines] at hb
    | cons h2 t2 =>
      have hparts : (h.newStart + h.newCount ≤ h2.newStart)
          ∧ hunksOrdered (h2 :: t2) = true := by simpa [hunksOrdered] using hord
      have hb2 := specNewFileLines_lb t2 h2 hparts.2 b hb
      have hle := hparts.1
      push_cast at ha2 hb2 ⊢
      omega

/-!
## Helper lemmas for the remaining claims
-/

theorem parse_step_appends (st : Int × List Int) (l : Str) :
    ∃ t, (parse_diff_step st l).2 = st.2 ++ t := by
  unfold parse_diff_step
  by_cases h1 : startsWith (str "@@") l = true
  · rw [if_pos h1]
    cases headerNewStart l with
    | some n => exact ⟨[], by simp⟩
    | none => exact ⟨[], by simp⟩
  · rw [if_neg h1]
    by_cases h2 : (startsWith (str "+") l && !startsWith (str "+++") l) = true
    · rw [if_pos h2]
      exact ⟨[st.1], rfl⟩
    · rw [if_neg h2]
      by_cases h3 : (startsWith (str "-") l && !startsWith (str "---") l) = true
      · rw [if_pos h3]
        exact ⟨[], by simp⟩
      · rw [if_neg h3]
        by_cases h4 : (!startsWith (str "\\") l) = true
        · rw [if_pos h4]
          exact ⟨[], by simp⟩
        · rw [if_neg h4]
          exact ⟨[], by simp⟩

theorem foldl_parse_snd_prefix : ∀ (lines : List Str) (st : Int × List Int),
    ∃ t, (List.foldl parse_diff_step st lines).2 = st.2 ++ t := by
  intro lines
  induction lines with
  | nil =>
    intro st
    exact ⟨[], by simp⟩
  | cons l rest ih =>
    intro st
    rw [List.foldl_cons]
    obtain ⟨t1, h1⟩ := parse_step_appends st l
    obtain ⟨t2, h2⟩ := ih (parse_diff_step st l)
    exact ⟨t1 ++ t2, by rw [h2, h1, List.append_assoc]⟩

/-- A line the parser records: starts with `+` but not with `+++`. -/
def plusContentLine (l : Str) : Bool :=
  startsWith (str "+") l && !startsWith (str "+++") l

theorem parse_step_snd_length (st : Int × List Int) (l : Str) :
    (parse_diff_step st l).2.length
      = st.2.length + (if plusContentLine l = true then 1 else 0) := by
  unfold parse_diff_step plusContentLine
  by_cases h1 : startsWith (str "@@") l = true
  · have hp : (startsWith (str "+") l && !startsWith (str "+++") l) = false := by
      cases l with
      | nil => exact absurd h1 (by decide)
      | cons c rest =>
        cases hq : ('@' == c) with
        | false =>
          rw [show startsWith (str "@@") (c :: rest)
              = (('@' == c) && startsWith ['@'] rest) from rfl, hq] at h1
          simp at h1
        | true =>
          have hc : c = '@' := (beq_iff_eq.mp hq).symm
          subst hc
          rfl
    rw [if_pos h1, hp]
    cases headerNewStart l with
    | some n => simp
    | none => simp
  · rw [if_neg h1]
    by_cases h2 : (startsWith (str "+") l && !startsWith (str "+++") l) = true
    · rw [if_pos h2, h2]
      simp
    · have h2f : (startsWith (str "+") l && !startsWith (str "+++") l) = false :=
        Bool.not_eq_true _ ▸ Bool.eq_false_iff.mpr h2
      rw [if_neg h2, h2f]
      by_cases h3 : (startsWith (str "-") l && !startsWith (str "---") l) = true
      · rw [if_pos h3]
        simp
      · rw [if_neg h3]
        by_cases h4 : (!startsWith (str "\\") l) = true
        · rw [if_pos h4]
          simp
        · rw [if_neg h4]
          simp

theorem foldl_parse_snd_length : ∀ (lines : List Str) (st : Int × List Int),
    (List.foldl parse_diff_step st lines).2.length
      = st.2.length + (lines.filter plusContentLine).length := by
  intro lines
  induction lines with
  | nil =>
    intro st
    simp
  | cons l rest ih =>
    intro st
    rw [List.foldl_cons, ih (parse_diff_step st l), parse_step_snd_length st l]
    by_cases hp : plusContentLine l = true
    · simp [List.filter_cons, hp]
      omega
    · have hpf : plusContentLine l = false := Bool.eq_false_iff.mpr hp
      simp [List.filter_cons, hpf]

theorem find_summary_none {notes : List MRNote}
    (h : find_existing_summary_note notes = none) :
    ∀ n ∈ notes, isSummaryBody n.body = false := by
  induction notes with
  | nil =>
    intro n hn
    simp at hn
  | cons note rest ih =>
    intro n hn
    by_cases hs : isSummaryBody note.body = true
    · rw [show find_existing_summary_note (note :: rest)
          = if isSummaryBody note.body then some note.id
            else find_existing_summary_note rest from rfl, if_pos hs] at h
      exact absurd h (by simp)
    · have hsf : isSummaryBody note.body = false := Bool.eq_false_iff.mpr hs
      rw [show find_existing_summary_note (note :: rest)
          = if isSummaryBody note.body then some note.id
            else find_existing_summary_note rest from rfl, if_neg (by simp [hsf])] at h
      rcases List.mem_cons.mp hn with rfl | hn2
      · exact hsf
      · exact ih h n hn2

theorem find_summary_some {notes : List MRNote} {nid : Nat}
    (h : find_existing_summary_note notes = some nid) :
    ∃ n ∈ notes, n.id = nid ∧ isSummaryBody n.body = true := by
  induction notes with
  | nil => simp [find_existing_summary_note] at h
  | cons note rest ih =>
    by_cases hs : isSummaryBody note.body = true
    · rw [show find_existing_summary_note (note :: rest)
          = if isSummaryBody note.body then some note.id
            else find_existing_summary_note rest from rfl, if_pos hs] at h
      exact ⟨note, List.mem_cons_self _ _, Option.some.inj h, hs⟩
    · rw [show find_existing_summary_note (note :: rest)
          = if isSummaryBody note.body then some note.id
            else find_existing_summary_note rest from rfl,
        if_neg (by simp [Bool.eq_false_iff.mpr hs])] at h
      obtain ⟨n, hn, hid, hb⟩ := ih h
      exact ⟨n, List.mem_cons_of_mem _ hn, hid, hb⟩

theorem countSummaryNotes_eq_zero {notes : List MRNote}
    (h : ∀ n ∈ notes, isSummaryBody n.body = false) :
    countSummaryNotes notes = 0 := by
  unfold countSummaryNotes
  rw [List.filter_eq_nil_iff.mpr (fun n hn => by simp [h n hn])]
  rfl

theorem countSummaryNotes_pos {notes : List MRNote} {n : MRNote}
    (hn : n ∈ notes) (hb : isSummaryBody n.body = true) :
    0 < countSummaryNotes notes := by
  unfold countSummaryNotes
  have : n ∈ notes.filter (fun n => isSummaryBody n.body) :=
    List.mem_filter.mpr ⟨hn, hb⟩
  exact List.length_pos.mpr (fun he => by simp [he] at this)

theorem prune_fold_count (deleteStatus : Nat → Nat) :
    ∀ (l : List AIComment) (st : Nat × List Nat),
      (List.foldl (fun (st : Nat × List Nat) c =>
        (st.1 + 1, if 400 ≤ deleteStatus c.note_id then st.2 ++ [c.note_id] else st.2))
        st l).1 = st.1 + l.length := by
  intro l
  induction l with
  | nil =>
    intro st
    simp
  | cons c rest ih =>
    intro st
    rw [List.foldl_cons, ih]
    simp
    omega

theorem pruneCount_fst (discussions : List Discussion) (deleteStatus : Nat → Nat) :
    (pruneCount discussions deleteStatus).1
      = (get_existing_ai_comments discussions).length := by
  unfold pruneCount
  rw [prune_fold_count deleteStatus]
  exact Nat.zero_add _

theorem should_review_eq (patterns exts : List Str) (fp : Str) :
    should_review_file patterns exts fp
      = (!(patterns.any (fun p => matchesIgnorePattern fp p))
         && exts.contains (lowerStr (pathSuffix fp))) := by
  induction patterns with
  | nil => simp [should_review_file]
  | cons p rest ih =>
    by_cases hm : matchesIgnorePattern fp p = true
    · simp [should_review_file, hm]
    · have hmf : matchesIgnorePattern fp p = false := Bool.eq_false_iff.mpr hm
      simp [should_review_file, hmf, ih]

/-!
## The claims
-/

/-- A well-formed diff whose single added line has content starting `++`, so
it renders as the file-header form `+++x`; the parser skips it. -/
def headerCollisionAddDiff : UnifiedDiff :=
  { preamble := []
    hunks := [
      { oldStart := 1, oldCount := 0, newStart := 2, newCount := 1
        body := [.add (str "++x")] } ] }

/-- A well-formed diff whose deleted line has content starting `--`, so it
renders as the file-header form `---x`; the parser treats it as context and
advances the new-file cursor, misnumbering the following added line. -/
def headerCollisionDelDiff : UnifiedDiff :=
  { preamble := []
    hunks := [
      { oldStart := 1, oldCount := 1, newStart := 2, newCount := 1
        body := [.del (str "--x"), .add (str "y")] } ] }

/-- Claim C1 counterexample: two well-formed diffs on which the parser's
output is NOT the new-file line numbers of the `+` content lines. An added
line whose content starts with `++` renders as `+++x` and is skipped (output
`[]` where the new-file positions are `[2]`); a deleted line whose content
starts with `--` renders as `---x` and wrongly advances the cursor (output
`[3]` where the new-file positions are `[2]`). -/
theorem diffLineMapper_collision_cex :
    (wellFormedDiff headerCollisionAddDiff = true
     ∧ parse_diff_for_new_lines (renderDiff headerCollisionAddDiff) = []
     ∧ specNewFileLines headerCollisionAddDiff.hunks = [2]
     ∧ parse_diff_for_new_lines (renderDiff headerCollisionAddDiff)
        ≠ specNewFileLines headerCollisionAddDiff.hunks)
    ∧ (wellFormedDiff headerCollisionDelDiff = true
       ∧ parse_diff_for_new_lines (renderDiff headerCollisionDelDiff) = [3]
       ∧ specNewFileLines headerCollisionDelDiff.hunks = [2]
       ∧ parse_diff_for_new_lines (renderDiff headerCollisionDelDiff)
          ≠ specNewFileLines headerCollisionDelDiff.hunks) := by
  decide

/-- Claim C1 (amended): for every well-formed unified diff in which no added
line's content begins with `++` and no deleted line's content begins with
`--` (so no content line renders in the `+++`/`---` file-header form),
`parse_diff_for_new_lines` returns exactly the new-file line numbers of the
`+`-prefixed content lines — the spec-side `specNewFileLines` — in strictly
increasing order, hence with no duplicates. Without the collision-freedom
restriction the property fails: see `diffLineMapper_collision_cex`. -/
theorem diffLineMapper_well_formed (d : UnifiedDiff)
    (hwf : wellFormedDiff d = true) (hhf : headerFreeDiff d = true) :
    parse_diff_for_new_lines (renderDiff d) = specNewFileLines d.hunks
    ∧ (specNewFileLines d.hunks).Pairwise (· < ·) := by
  refine ⟨parse_render hwf hhf, ?_⟩
  simp only [wellFormedDiff, Bool.and_eq_true, List.all_eq_true] at hwf
  exact specNewFileLines_pairwise _ hwf.1.2 hwf.2

/-- A concrete well-formed, collision-free two-hunk diff used to witness
claim C1. -/
def exampleDiff : UnifiedDiff :=
  { preamble := [str "--- a/src/app.py", str "+++ b/src/app.py"]
    hunks := [
      { oldStart := 1, oldCount := 2, newStart := 10, newCount := 3
        body := [.ctx (str "keep"), .add (str "new line one"),
                 .del (str "old"), .add (str "new line two")] },
      { oldStart := 20, oldCount := 1, newStart := 30, newCount := 2
        body := [.ctx (str "ctx"), .add (str "tail")] } ] }

theorem diffLineMapper_well_formed_witness :
    (wellFormedDiff exampleDiff = true ∧ headerFreeDiff exampleDiff = true)
    ∧ (parse_diff_for_new_lines (renderDiff exampleDiff) = specNewFileLines exampleDiff.hunks
       ∧ (specNewFileLines exampleDiff.hunks).Pairwise (· < ·)) :=
  ⟨⟨by decide, by decide⟩, diffLineMapper_well_formed exampleDiff (by decide) (by decide)⟩

/-- Claim C2: on `"@@ -1,2 +10,3 @@\n context\n+added1\n-removed\n+added2\n"`
the mapper returns exactly `[11, 12]`, and the intermediate parser states are
as the claim describes: the header sets the cursor to 10, the context line
advances it to 11, the first added line records 11 and advances to 12, the
removed line changes nothing, the second added line records 12. -/
theorem diffLineMapper_example_eval :
    parse_diff_for_new_lines
        (str "@@ -1,2 +10,3 @@\n context\n+added1\n-removed\n+added2\n") = [11, 12]
    ∧ parse_diff_step ((0 : Int), []) (str "@@ -1,2 +10,3 @@") = (10, [])
    ∧ parse_diff_step ((10 : Int), []) (str " context") = (11, [])
    ∧ parse_diff_step ((11 : Int), []) (str "+added1") = (12, [11])
    ∧ parse_diff_step ((12 : Int), [11]) (str "-removed") = (12, [11])
    ∧ parse_diff_step ((12 : Int), [11]) (str "+added2") = (13, [11, 12]) := by
  decide

/-- Claim C3 counterexample: on `"@@ garbage @@\n+added"` the content line
after the malformed header DOES contribute an eligible line (the stale cursor
value 0) — refuting the claim that content lines after a malformed header
contribute no eligible lines until a valid header appears. -/
theorem malformed_header_contributes_cex :
    parse_diff_for_new_lines (str "@@ garbage @@\n+added") = [0]
    ∧ parse_diff_for_new_lines (str "@@ garbage @@\n+added") ≠ [] := by
  decide

/-- Claim C3 (amended): a malformed hunk header (an `@@`-prefixed line whose
`+start` extraction fails) raises no error and leaves the parser state —
cursor and collected lines — entirely unchanged; content lines that follow
are processed with the stale cursor, so `+` lines among them are still
recorded (see the counterexample) rather than contributing nothing. -/
theorem malformed_header_skip_amended (l : Str)
    (h1 : startsWith (str "@@") l = true) (h2 : headerNewStart l = none) :
    ∀ (c : Int) (acc : List Int), parse_diff_step (c, acc) l = (c, acc) := by
  intro c acc
  unfold parse_diff_step
  rw [if_pos h1, h2]

theorem malformed_header_skip_amended_witness :
    (startsWith (str "@@") (str "@@ garbage @@") = true
     ∧ headerNewStart (str "@@ garbage @@") = none)
    ∧ parse_diff_step ((5 : Int), [3]) (str "@@ garbage @@") = (5, [3]) :=
  ⟨⟨by decide, by decide⟩,
    malformed_header_skip_amended (str "@@ garbage @@") (by decide) (by decide) 5 [3]⟩

/-- Claim C4: the ensure-summary step searches the existing notes for the
summary marker and reuses the found identifier, creating a placeholder note
only when no summary note exists; consequently (for stores whose note ids
are nonzero, as GitLab's are) the number of summary notes after the step is
`max (previous count) 1` — a pass run against a review unit that already
holds a summary note never creates a second one. -/
theorem summary_note_upsert_unique (notes : List MRNote) (freshId : Nat)
    (hpos : ∀ n ∈ notes, n.id ≠ 0) :
    (∀ nid, find_existing_summary_note notes = some nid →
        ensure_summary notes freshId = (nid, notes))
    ∧ (find_existing_summary_note notes = none →
        (ensure_summary notes freshId).2
          = notes ++ [{ id := freshId, body := summaryPlaceholder, position := none }])
    ∧ countSummaryNotes (ensure_summary notes freshId).2
        = max (countSummaryNotes notes) 1 := by
  cases hf : find_existing_summary_note notes with
  | none =>
    have hens : ensure_summary notes freshId
        = (freshId, notes ++ [{ id := freshId, body := summaryPlaceholder, position := none }]) := by
      unfold ensure_summary
      rw [hf]
      simp
    refine ⟨fun nid h => Option.noConfusion h, fun _ => by rw [hens], ?_⟩
    rw [hens]
    have hz := countSummaryNotes_eq_zero (find_summary_none hf)
    have hp : isSummaryBody summaryPlaceholder = true := by decide
    unfold countSummaryNotes at hz ⊢
    rw [List.filter_append, List.length_append, hz]
    simp [List.filter_cons, hp]
  | some nid =>
    obtain ⟨n, hn, hid, hb⟩ := find_summary_some hf
    have hnz : nid ≠ 0 := hid ▸ hpos n hn
    have hens : ensure_summary notes freshId = (nid, notes) := by
      unfold ensure_summary
      rw [hf]
      simp [hnz]
    refine ⟨fun nid2 h2 => ?_, fun h2 => absurd h2 (by simp), ?_⟩
    · have heq : nid = nid2 := Option.some.inj h2
      rw [← heq]
      exact hens
    · have hge : 0 < countSummaryNotes notes := countSummaryNotes_pos hn hb
      rw [hens, Nat.max_eq_left (by omega : 1 ≤ countSummaryNotes notes)]

/-- A note store already holding one summary note, witnessing claim C4. -/
def summaryNotesExample : List MRNote :=
  [{ id := 7, body := str "## RejPAL\n\nstará tabulka", position := none }]

theorem summary_note_upsert_unique_witness :
    (∀ n ∈ summaryNotesExample, n.id ≠ 0)
    ∧ ((∀ nid, find_existing_summary_note summaryNotesExample = some nid →
          ensure_summary summaryNotesExample 99 = (nid, summaryNotesExample))
       ∧ (find_existing_summary_note summaryNotesExample = none →
          (ensure_summary summaryNotesExample 99).2
            = summaryNotesExample
              ++ [{ id := 99, body := summaryPlaceholder, position := none }])
       ∧ countSummaryNotes (ensure_summary summaryNotesExample 99).2
          = max (countSummaryNotes summaryNotesExample) 1) :=
  ⟨by decide, summary_note_upsert_unique summaryNotesExample 99 (by decide)⟩

/-- Claim C5 (amended): a failing delete call during Prune does not abort the
pass — every later observable (summary-note choice, per-file loop, published
comments, final summary, updated notes) equals its value under an
all-success delete oracle — but the `deleted_count` reported in the final
summary counts every attempted deletion, not only the successful ones. -/
theorem prune_best_effort_counts_attempts
    (discussions : List Discussion) (notes : List MRNote) (changes : List FileChange)
    (deleteStatus : Nat → Nat) (contentOf : Str → Option Str)
    (decodedOf : Str → Option (List AiItem)) (freshId : Nat) :
    (runPass discussions notes changes deleteStatus contentOf decodedOf freshId).deleted_count
        = (get_existing_ai_comments discussions).length
    ∧ (runPass discussions notes changes deleteStatus contentOf decodedOf freshId).published
        = (runPass discussions notes changes (fun _ => 200) contentOf decodedOf freshId).published
    ∧ (runPass discussions notes changes deleteStatus contentOf decodedOf freshId).final_summary
        = (runPass discussions notes changes (fun _ => 200) contentOf decodedOf freshId).final_summary
    ∧ (runPass discussions notes changes deleteStatus contentOf decodedOf freshId).total_comments
        = (runPass discussions notes changes (fun _ => 200) contentOf decodedOf freshId).total_comments
    ∧ (runPass discussions notes changes deleteStatus contentOf decodedOf freshId).reviewed_files
        = (runPass discussions notes changes (fun _ => 200) contentOf decodedOf freshId).reviewed_files
    ∧ (runPass discussions notes changes deleteStatus contentOf decodedOf freshId).summary_note_id
        = (runPass discussions notes changes (fun _ => 200) contentOf decodedOf freshId).summary_note_id
    ∧ (runPass discussions notes changes deleteStatus contentOf decodedOf freshId).notes_after
        = (runPass discussions notes changes (fun _ => 200) contentOf decodedOf freshId).notes_after := by
  refine ⟨?_, rfl, ?_, rfl, rfl, rfl, ?_⟩
  · simp only [runPass]
    exact pruneCount_fst discussions deleteStatus
  · simp only [runPass, pruneCount_fst]
  · simp only [runPass, pruneCount_fst]

/-- A discussion store holding one stale AI comment, for the C5
counterexample. -/
def staleDiscussions : List Discussion :=
  [{ id := 1, notes := [{ id := 5, body := str "🔴 **RejPAL**: drobnost", position := none }] }]

/-- Claim C5 counterexample: with one stale AI comment whose delete call
fails with HTTP 404, the pass reports `deleted_count = 1` although zero
deletions succeeded — the reported count is attempts, not successes, so the
claim that it counts only successful deletions is false. -/
theorem deleted_count_not_successes_cex :
    (runPass staleDiscussions [] [] (fun _ => 404) (fun _ => none) (fun _ => none) 9).deleted_count = 1
    ∧ successfulDeletes staleDiscussions (fun _ => 404) = 0
    ∧ (runPass staleDiscussions [] [] (fun _ => 404) (fun _ => none) (fun _ => none) 9).deleted_count
        ≠ successfulDeletes staleDiscussions (fun _ => 404) := by
  decide

/-- Claim C6: a finding whose `line` is not a member of the eligible-line set
— including a missing line — or whose `message` is missing or empty, is
dropped by `analyze_with_ai`'s validation filter and never appears in its
output (so it is never formatted or published); the filter is a total
function, so no error is raised for such a finding. -/
theorem analyze_filter_rejects (decoded : Option (List AiItem))
    (changed_lines : List Int) (line : Option Int)
    (severity message suggestion : Option Str)
    (hbad : (∀ l ∈ changed_lines, line ≠ some l)
            ∨ message = none ∨ message = some []) :
    AiItem.obj line severity message suggestion ∉ analyze_with_ai decoded changed_lines := by
  intro hmem
  cases decoded with
  | none => simp [analyze_with_ai] at hmem
  | some comments =>
    rcases hbad with hb | hb | hb
    · cases line with
      | none => simp [analyze_with_ai, List.mem_filter] at hmem
      | some l =>
        simp only [analyze_with_ai, List.mem_filter, Bool.and_eq_true,
          decide_eq_true_eq] at hmem
        exact hb l (by simpa using hmem.2.1) rfl
    · subst hb
      simp [analyze_with_ai, List.mem_filter] at hmem
    · subst hb
      simp [analyze_with_ai, List.mem_filter] at hmem

theorem analyze_filter_rejects_witness :
    ((∀ l ∈ ([1, 2] : List Int), (some (5 : Int)) ≠ some l)
     ∨ (some (str "msg")) = none ∨ (some (str "msg")) = some [])
    ∧ AiItem.obj (some 5) none (some (str "msg")) none
        ∉ analyze_with_ai
            (some [AiItem.obj (some 5) none (some (str "msg")) none]) [1, 2] :=
  ⟨Or.inl (by decide),
    analyze_filter_rejects (some [AiItem.obj (some 5) none (some (str "msg")) none])
      [1, 2] (some 5) none (some (str "msg")) none (Or.inl (by decide))⟩

/-- Claim C7: `should_review_file` returns false whenever any ignore pattern
matches (glob-suffix, directory, or plain substring), regardless of
extension; with no pattern matching, it returns true iff the lowercased
extension is in the reviewable set. Under the default sets, any path
containing `node_modules` is excluded, `src/app.go` is reviewed, and
`vendor/pkg/app.go` is excluded by the `vendor/` directory pattern. -/
theorem should_review_file_spec (patterns exts : List Str) (fp fp2 : Str)
    (hnm : containsSub (str "node_modules") fp2 = true) :
    should_review_file patterns exts fp
      = (!(patterns.any (fun p => matchesIgnorePattern fp p))
         && exts.contains (lowerStr (pathSuffix fp)))
    ∧ should_review_file IGNORE_PATTERNS REVIEW_EXTENSIONS fp2 = false
    ∧ should_review_file IGNORE_PATTERNS REVIEW_EXTENSIONS (str "src/app.go") = true
    ∧ should_review_file IGNORE_PATTERNS REVIEW_EXTENSIONS (str "vendor/pkg/app.go") = false := by
  refine ⟨should_review_eq _ _ _, ?_, by decide, by decide⟩
  rw [should_review_eq]
  have hmatch : matchesIgnorePattern fp2 (str "node_modules") = true := by
    unfold matchesIgnorePattern
    rw [if_neg (by decide), if_neg (by decide)]
    exact hnm
  have hany : IGNORE_PATTERNS.any (fun p => matchesIgnorePattern fp2 p) = true :=
    List.any_eq_true.mpr ⟨str "node_modules", by decide, hmatch⟩
  rw [hany]
  rfl

theorem should_review_file_spec_witness :
    containsSub (str "node_modules") (str "web/node_modules/lib.js") = true
    ∧ (should_review_file IGNORE_PATTERNS REVIEW_EXTENSIONS (str "a.py")
        = (!(IGNORE_PATTERNS.any (fun p => matchesIgnorePattern (str "a.py") p))
           && REVIEW_EXTENSIONS.contains (lowerStr (pathSuffix (str "a.py"))))
       ∧ should_review_file IGNORE_PATTERNS REVIEW_EXTENSIONS (str "web/node_modules/lib.js") = false
       ∧ should_review_file IGNORE_PATTERNS REVIEW_EXTENSIONS (str "src/app.go") = true
       ∧ should_review_file IGNORE_PATTERNS REVIEW_EXTENSIONS (str "vendor/pkg/app.go") = false) :=
  ⟨by decide,
    should_review_file_spec IGNORE_PATTERNS REVIEW_EXTENSIONS (str "a.py")
      (str "web/node_modules/lib.js") (by decide)⟩

/-- Claim C8: `format_comment` maps the severities `critical`, `warning` and
`suggestion` each to their own fixed glyph and any other present severity to
the generic fallback glyph; for every finding, the body is the glyph, the
`**RejPAL**` authorship marker and the message, with the suggestion appended
as a distinct quoted block exactly when a non-empty suggestion is present
(`suggestion.getD []` is the Python `comment.get("suggestion", "")`, so a
missing suggestion and an empty one are both "absent"). -/
theorem format_comment_spec (line : Option Int) (s msgText : Str)
    (h1 : s ≠ str "critical") (h2 : s ≠ str "warning") (h3 : s ≠ str "suggestion") :
    severity_emoji_get (str "critical") = str "🔴"
    ∧ severity_emoji_get (str "warning") = str "🟡"
    ∧ severity_emoji_get (str "suggestion") = str "💡"
    ∧ severity_emoji_get s = str "💬"
    ∧ (∀ (sev sug : Option Str), sug.getD [] = [] →
        format_comment (.obj line sev (some msgText) sug)
          = severity_emoji_get (sev.getD (str "suggestion"))
            ++ str " **RejPAL**: " ++ msgText)
    ∧ (∀ (sev sug : Option Str), sug.getD [] ≠ [] →
        format_comment (.obj line sev (some msgText) sug)
          = severity_emoji_get (sev.getD (str "suggestion"))
            ++ str " **RejPAL**: " ++ msgText
            ++ str "\n\n> 💡 **Návrh**: " ++ sug.getD []) := by
  refine ⟨by decide, by decide, by decide, ?_, ?_, ?_⟩
  · unfold severity_emoji_get
    rw [if_neg (by simp [h1]), if_neg (by simp [h2]), if_neg (by simp [h3])]
  · intro sev sug hemp
    simp only [format_comment]
    rw [if_neg (by simp [hemp])]
    rfl
  · intro sev sug hne
    simp only [format_comment]
    rw [if_pos (by simp [hne])]
    simp [List.append_assoc]

theorem format_comment_spec_witness :
    ((str "info" ≠ str "critical") ∧ (str "info" ≠ str "warning")
      ∧ (str "info" ≠ str "suggestion"))
    ∧ (severity_emoji_get (str "critical") = str "🔴"
       ∧ severity_emoji_get (str "warning") = str "🟡"
       ∧ severity_emoji_get (str "suggestion") = str "💡"
       ∧ severity_emoji_get (str "info") = str "💬"
       ∧ (∀ (sev sug : Option Str), sug.getD [] = [] →
            format_comment (.obj none sev (some (str "zpráva")) sug)
              = severity_emoji_get (sev.getD (str "suggestion"))
                ++ str " **RejPAL**: " ++ str "zpráva")
       ∧ (∀ (sev sug : Option Str), sug.getD [] ≠ [] →
            format_comment (.obj none sev (some (str "zpráva")) sug)
              = severity_emoji_get (sev.getD (str "suggestion"))
                ++ str " **RejPAL**: " ++ str "zpráva"
                ++ str "\n\n> 💡 **Návrh**: " ++ sug.getD [])) :=
  ⟨⟨by decide, by decide, by decide⟩,
    format_comment_spec none (str "info") (str "zpráva")
      (by decide) (by decide) (by decide)⟩

/-- Claim C9: a `+`-prefixed content line (not `+++`) standing at the start
of the diff — before any valid hunk header has been seen — is recorded at
the initial cursor value 0: the head of the returned list is 0, so the
output can contain 0, which is not a valid (1-based) new-file line number. -/
theorem plus_line_before_header_records_zero (x rest : Str)
    (hnl : x.contains '\n' = false) (hpp : startsWith (str "++") x = false) :
    (parse_diff_for_new_lines ('+' :: (x ++ '\n' :: rest))).head? = some 0
    ∧ (0 : Int) ∈ parse_diff_for_new_lines ('+' :: (x ++ '\n' :: rest)) := by
  have hx : '\n' ∉ ('+' :: x) := nm_cons (by decide) (by simpa using hnl)
  have hshape : ('+' :: (x ++ '\n' :: rest)) = ('+' :: x) ++ '\n' :: rest := by simp
  unfold parse_diff_for_new_lines
  rw [hshape, splitOnChar_append rest hx, List.foldl_cons, parse_step_add hpp]
  obtain ⟨t, ht⟩ := foldl_parse_snd_prefix (splitOnChar '\n' rest)
    (((0 : Int) + 1), ([] : List Int) ++ [(0 : Int)])
  rw [ht]
  constructor
  · simp
  · simp

theorem plus_line_before_header_records_zero_witness :
    ((str "hello").contains '\n' = false
     ∧ startsWith (str "++") (str "hello") = false)
    ∧ ((parse_diff_for_new_lines ('+' :: (str "hello" ++ '\n' :: str " ctx"))).head? = some 0
       ∧ (0 : Int) ∈ parse_diff_for_new_lines ('+' :: (str "hello" ++ '\n' :: str " ctx"))) :=
  ⟨⟨by decide, by decide⟩,
    plus_line_before_header_records_zero (str "hello") (str " ctx")
      (by decide) (by decide)⟩

/-- Claim C10: `parse_diff_for_new_lines` is total: for every input string it
returns a list with exactly one entry per `+`-prefixed content line (so it
never fails — the one fallible step, extracting the numeric `+start` field,
is modelled by the `Option`-valued `headerNewStart`, whose `none` outcome is
absorbed without effect); on the empty string and on a binary-diff
placeholder it returns the empty list. -/
theorem parse_diff_total (diff : Str) :
    (parse_diff_for_new_lines diff).length
      = ((splitOnChar '\n' diff).filter plusContentLine).length
    ∧ parse_diff_for_new_lines (str "") = []
    ∧ parse_diff_for_new_lines
        (str "Binary files a/img.png and b/img.png differ") = [] := by
  refine ⟨?_, by decide, by decide⟩
  unfold parse_diff_for_new_lines
  rw [foldl_parse_snd_length]
  simp

